import Mathlib

/-!
Verification development for the fixed-point decimal conversion utilities
`ToIntByPrecise` and `ToStringByPrecise` of the EIP-7702 demo repository
(`main.go`).  The Go code is shallowly embedded: `*big.Int` becomes `Int`
(`Option Int` where the pointer may be nil), Go strings become `String` /
`List Char`, and the relevant pieces of the Go standard library
(`strings.TrimSpace`, `strings.Split` on `"."`, `big.Int.SetString`,
`big.Int.Div`, `big.Int.String`) are modelled faithfully, including the
behaviour of `SetString` on malformed input (the receiver holds the value of
the longest leading digit run and the success flag is `false`; the Go code
discards that flag).
-/

/-- `unicode.IsSpace` restricted to the code points Go treats as white space
(the Latin-1 fast path of `strings.TrimSpace` plus the Unicode space
category used for the remaining code points). -/
def goIsSpace (c : Char) : Bool :=
  c.toNat = 9 || c.toNat = 10 || c.toNat = 11 || c.toNat = 12 || c.toNat = 13 ||
  c.toNat = 32 || c.toNat = 0x85 || c.toNat = 0xA0 || c.toNat = 0x1680 ||
  (0x2000 ≤ c.toNat && c.toNat ≤ 0x200A) ||
  c.toNat = 0x2028 || c.toNat = 0x2029 || c.toNat = 0x202F ||
  c.toNat = 0x205F || c.toNat = 0x3000

/-- ASCII decimal digit test, as used by `big.Int.SetString` in base 10. -/
def goIsDigit (c : Char) : Bool :=
  48 ≤ c.toNat && c.toNat ≤ 57

/-- `strings.TrimSpace`: remove leading and trailing white space. -/
def trimSpace (l : List Char) : List Char :=
  ((l.dropWhile goIsSpace).reverse.dropWhile goIsSpace).reverse

/-- `strings.Split(s, ".")`: split on every occurrence of `'.'`.
`splitDot [] = [[]]`, matching Go's `Split("", ".") = [""]`. -/
def splitDot : List Char → List (List Char)
  | [] => [[]]
  | c :: r =>
    if c = '.' then [] :: splitDot r
    else
      match splitDot r with
      | [] => [[c]]
      | q :: qs => (c :: q) :: qs

/-- Value of a list of ASCII digit characters read as a base-10 numeral. -/
def digitsToNat (l : List Char) : Nat :=
  l.foldl (fun a c => a * 10 + (c.toNat - 48)) 0

/-- `big.Int.SetString(s, 10)` on a fresh zero receiver: an optional sign,
then the longest run of decimal digits.  Returns the receiver's final value
and the success flag.  On failure the receiver holds the value of the digit
run already scanned (zero if there was none), exactly as in Go's
implementation; the flag is `false` unless at least one digit was read and
the whole string was consumed. -/
def goSetString (l : List Char) : Int × Bool :=
  let h := l.headD ' '
  let l1 := if h = '-' ∨ h = '+' then l.drop 1 else l
  let ds := l1.takeWhile goIsDigit
  let rest := l1.dropWhile goIsDigit
  if ds = [] then (0, false)
  else
    (if h = '-' then -(digitsToNat ds : Int) else (digitsToNat ds : Int),
     rest.isEmpty)

/-- Embedding of `ToIntByPrecise` from `main.go`:

```
value = strings.TrimSpace(value)
parts := strings.Split(value, ".")
if len(parts) == 1 { parts = append(parts, "0") }
precise = precise - int64(len(parts[1]))
if precise < 0 { precise = 0 }
value = parts[0] + parts[1]
bi := new(big.Int); bi.SetString(value, 10)
if precise > 0 { bi.Mul(bi, 10^precise) }
return bi
```

The boolean returned by `SetString` is discarded, as in the source. -/
def ToIntByPrecise (s : String) (precise : Int) : Int :=
  let cs := trimSpace s.data
  let parts0 := splitDot cs
  let parts := if parts0.length = 1 then parts0 ++ [['0']] else parts0
  let intPart := parts.headD []
  let fracPart := (parts.drop 1).headD []
  let eff0 := precise - (fracPart.length : Int)
  let eff := if eff0 < 0 then 0 else eff0
  let bi := (goSetString (intPart ++ fracPart)).1
  if eff > 0 then bi * (10 : Int) ^ eff.toNat else bi

/-- Big-endian decimal digit characters of a positive natural number; the
first argument is recursion fuel (any fuel `≥ n` is enough). -/
def natDecCharsAux : Nat → Nat → List Char
  | _, 0 => []
  | 0, _ + 1 => []
  | fuel + 1, m + 1 =>
    natDecCharsAux fuel ((m + 1) / 10) ++ [Char.ofNat (48 + (m + 1) % 10)]

/-- Decimal digit characters of a natural number (`"0"` for zero). -/
def natDecChars (n : Nat) : List Char :=
  if n = 0 then ['0'] else natDecCharsAux n n

/-- `big.Int.String()`: decimal representation, `'-'`-prefixed when
negative. -/
def intToDecString (x : Int) : String :=
  if x < 0 then String.mk ('-' :: natDecChars (-x).toNat)
  else String.mk (natDecChars x.toNat)

/-- Embedding of `ToStringByPrecise` from `main.go`:

```
if value == nil { return "0" }
value = new(big.Int).Set(value)
precise = -precise
if precise < 0 { precise = 0 }
value.Div(value, 10^precise)
return value.String()
```

`big.Int.Div` is Euclidean division, which is exactly `Int`'s `/`
(`Int.ediv`); the divisor `10^e` is positive, so this is floor division.
Note the sign flip: the exponent actually used is `max 0 (-precise)`. -/
def ToStringByPrecise (value : Option Int) (precise : Int) : String :=
  match value with
  | none => "0"
  | some x =>
    let e0 := -precise
    let e := if e0 < 0 then 0 else e0
    intToDecString (x / (10 : Int) ^ e.toNat)

/-- A heap of `big.Int` cells, used to express the mutation behaviour of
`ToStringByPrecise`: `next` is the next fresh address, `val` the contents. -/
structure BigIntHeap where
  next : Nat
  val : Nat → Int

/-- `new(big.Int).Set(src)`: allocate a fresh cell holding the value of cell
`src`; returns the new heap and the address of the copy. -/
def heapSet (h : BigIntHeap) (src : Nat) : BigIntHeap × Nat :=
  (⟨h.next + 1, fun n => if n = h.next then h.val src else h.val n⟩, h.next)

/-- `z.Div(z, d)`: in-place Euclidean division of cell `dst` by `d`. -/
def heapDiv (h : BigIntHeap) (dst : Nat) (d : Int) : BigIntHeap :=
  ⟨h.next, fun n => if n = dst then h.val n / d else h.val n⟩

/-- Heap-level embedding of `ToStringByPrecise`: the argument is a possibly
nil pointer to a cell.  The body rebinds the local `value` to a fresh copy
(`new(big.Int).Set(value)`) and mutates only that copy. -/
def ToStringByPreciseHeap (h : BigIntHeap) (value : Option Nat) (precise : Int) :
    BigIntHeap × String :=
  match value with
  | none => (h, "0")
  | some a =>
    let s := heapSet h a
    let h1 := s.1
    let v := s.2
    let e0 := -precise
    let e := if e0 < 0 then 0 else e0
    let h2 := heapDiv h1 v ((10 : Int) ^ e.toNat)
    (h2, intToDecString (h2.val v))

/-! ### Character facts -/

lemma goIsDigit_spec {c : Char} (h : goIsDigit c = true) :
    48 ≤ c.toNat ∧ c.toNat ≤ 57 := by
  simpa [goIsDigit, Bool.and_eq_true, decide_eq_true_eq] using h

lemma goIsDigit_ne_sign {c : Char} (h : goIsDigit c = true) :
    ¬(c = '-' ∨ c = '+') := by
  rintro (rfl | rfl) <;> exact absurd h (by decide)

lemma goIsDigit_ne_dot {c : Char} (h : goIsDigit c = true) : c ≠ '.' := by
  rintro rfl; exact absurd h (by decide)

lemma goIsSpace_of_digit {c : Char} (h : goIsDigit c = true) :
    goIsSpace c = false := by
  obtain ⟨h1, h2⟩ := goIsDigit_spec h
  simp only [goIsSpace, Bool.or_eq_false_iff, Bool.and_eq_false_iff,
    decide_eq_false_iff_not]
  omega

/-! ### takeWhile / dropWhile helpers -/

lemma takeWhile_all {p : Char → Bool} :
    ∀ l : List Char, (∀ c ∈ l, p c = true) → l.takeWhile p = l
  | [], _ => rfl
  | c :: r, h => by
    have hc := h c (by simp)
    simp [List.takeWhile_cons, hc,
      takeWhile_all r (fun x hx => h x (by simp [hx]))]

lemma dropWhile_all {p : Char → Bool} :
    ∀ l : List Char, (∀ c ∈ l, p c = true) → l.dropWhile p = []
  | [], _ => rfl
  | c :: r, h => by
    have hc := h c (by simp)
    simp [List.dropWhile_cons, hc,
      dropWhile_all r (fun x hx => h x (by simp [hx]))]

lemma dropWhile_of_forall_neg {p : Char → Bool} :
    ∀ l : List Char, (∀ c ∈ l, p c = false) → l.dropWhile p = l
  | [], _ => rfl
  | c :: r, h => by
    have hc := h c (by simp)
    simp [List.dropWhile_cons, hc]

lemma dropWhile_append_cons {p : Char → Bool} {x : Char} (hx : p x = false) :
    ∀ l₁ l₂ : List Char,
      (l₁ ++ x :: l₂).dropWhile p = l₁.dropWhile p ++ x :: l₂
  | [], l₂ => by simp [List.dropWhile_cons, hx]
  | c :: r, l₂ => by
    by_cases hc : p c = true
    · simp [List.dropWhile_cons, hc, dropWhile_append_cons hx r l₂]
    · simp [List.dropWhile_cons, hc]

lemma takeWhile_append_cons {p : Char → Bool} {x : Char} (hx : p x = false) :
    ∀ l₁ l₂ : List Char, (∀ c ∈ l₁, p c = true) →
      (l₁ ++ x :: l₂).takeWhile p = l₁
  | [], l₂, _ => by simp [List.takeWhile_cons, hx]
  | c :: r, l₂, h => by
    have hc := h c (by simp)
    simp [List.takeWhile_cons, hc,
      takeWhile_append_cons hx r l₂ (fun y hy => h y (by simp [hy]))]

lemma dropWhile_append_cons_all {p : Char → Bool} {x : Char} (hx : p x = false) :
    ∀ l₁ l₂ : List Char, (∀ c ∈ l₁, p c = true) →
      (l₁ ++ x :: l₂).dropWhile p = x :: l₂
  | [], l₂, _ => by simp [List.dropWhile_cons, hx]
  | c :: r, l₂, h => by
    have hc := h c (by simp)
    simp [List.dropWhile_cons, hc,
      dropWhile_append_cons_all hx r l₂ (fun y hy => h y (by simp [hy]))]

/-! ### trimSpace helpers -/

lemma trimSpace_eq_self {l : List Char} (h : ∀ c ∈ l, goIsSpace c = false) :
    trimSpace l = l := by
  unfold trimSpace
  rw [dropWhile_of_forall_neg l h,
    dropWhile_of_forall_neg l.reverse (fun c hc => h c (List.mem_reverse.mp hc)),
    List.reverse_reverse]

lemma mem_trimSpace {c : Char} {l : List Char} (h : c ∈ trimSpace l) : c ∈ l := by
  unfold trimSpace at h
  rw [List.mem_reverse] at h
  have h2 := (List.dropWhile_sublist (l := (l.dropWhile goIsSpace).reverse)
    (p := goIsSpace)).subset h
  rw [List.mem_reverse] at h2
  exact (List.dropWhile_sublist (l := l) (p := goIsSpace)).subset h2

lemma trimSpace_append {l₁ : List Char} {x : Char} (l₂ : List Char)
    (hx : goIsSpace x = false) (h₁ : ∀ c ∈ l₁, goIsSpace c = false) :
    trimSpace (l₁ ++ x :: l₂)
      = l₁ ++ x :: (l₂.reverse.dropWhile goIsSpace).reverse := by
  unfold trimSpace
  have hleft : (l₁ ++ x :: l₂).dropWhile goIsSpace = l₁ ++ x :: l₂ := by
    cases l₁ with
    | nil => simp [List.dropWhile_cons, hx]
    | cons c r =>
      have hc := h₁ c (by simp)
      simp [List.dropWhile_cons, hc]
  rw [hleft]
  rw [show (l₁ ++ x :: l₂).reverse = l₂.reverse ++ x :: l₁.reverse by
    simp [List.reverse_append]]
  rw [dropWhile_append_cons hx]
  simp [List.reverse_append]

/-! ### splitDot helpers -/

lemma splitDot_ne_nil : ∀ l : List Char, splitDot l ≠ []
  | [] => by simp [splitDot]
  | c :: r => by
    by_cases hc : c = '.'
    · simp [splitDot, hc]
    · simp only [splitDot, if_neg hc]
      cases hrec : splitDot r <;> simp

lemma splitDot_no_dot : ∀ l : List Char, '.' ∉ l → splitDot l = [l]
  | [], _ => rfl
  | c :: r, h => by
    have hc : ¬(c = '.') := fun hc => h (by simp [hc])
    have hr : '.' ∉ r := fun hr => h (by simp [hr])
    simp only [splitDot, if_neg hc, splitDot_no_dot r hr]

lemma splitDot_append_dot : ∀ a r : List Char, '.' ∉ a →
    splitDot (a ++ '.' :: r) = a :: splitDot r
  | [], r, _ => by simp [splitDot]
  | c :: a', r, h => by
    have hc : ¬(c = '.') := fun hc => h (by simp [hc])
    have ha' : '.' ∉ a' := fun ha => h (by simp [ha])
    simp only [List.cons_append, splitDot, List.append_eq, if_neg hc,
      splitDot_append_dot a' r ha']

/-! ### digitsToNat helpers -/

lemma digitsToNat_go (l : List Char) : ∀ s : Nat,
    l.foldl (fun a c => a * 10 + (c.toNat - 48)) s
      = s * 10 ^ l.length + l.foldl (fun a c => a * 10 + (c.toNat - 48)) 0 := by
  induction l with
  | nil => intro s; simp
  | cons c r ih =>
    intro s
    simp only [List.foldl_cons, List.length_cons]
    rw [ih (s * 10 + (c.toNat - 48)), ih (0 * 10 + (c.toNat - 48))]
    ring

lemma digitsToNat_append (a b : List Char) :
    digitsToNat (a ++ b) = digitsToNat a * 10 ^ b.length + digitsToNat b := by
  unfold digitsToNat
  rw [List.foldl_append, digitsToNat_go]

/-! ### goSetString helpers -/

lemma goSetString_digits {l : List Char} (hne : l ≠ [])
    (hd : ∀ c ∈ l, goIsDigit c = true) :
    goSetString l = ((digitsToNat l : Int), true) := by
  obtain ⟨c, r, rfl⟩ := List.exists_cons_of_ne_nil hne
  have hc : goIsDigit c = true := hd c (by simp)
  have hsign := goIsDigit_ne_sign hc
  simp only [goSetString, List.headD_cons]
  rw [if_neg hsign, takeWhile_all _ hd, if_neg hne, dropWhile_all _ hd,
    if_neg (fun hdash => hsign (Or.inl hdash))]
  rfl

lemma goSetString_run {a : List Char} {c : Char} (b : List Char)
    (ha : a ≠ []) (had : ∀ x ∈ a, goIsDigit x = true)
    (hc : goIsDigit c = false) :
    goSetString (a ++ c :: b) = ((digitsToNat a : Int), false) := by
  obtain ⟨d, r, rfl⟩ := List.exists_cons_of_ne_nil ha
  have hd : goIsDigit d = true := had d (by simp)
  have hsign := goIsDigit_ne_sign hd
  simp only [goSetString, List.cons_append, List.headD_cons]
  rw [if_neg hsign]
  rw [show d :: (r ++ c :: b) = (d :: r) ++ c :: b by simp]
  rw [takeWhile_append_cons hc _ _ had, dropWhile_append_cons_all hc _ _ had,
    if_neg ha, if_neg (fun hdash => hsign (Or.inl hdash))]
  rfl

/-! ### natDecChars helpers -/

lemma digit_char_facts (r : Nat) (h : r < 10) :
    (Char.ofNat (48 + r)).toNat = 48 + r
      ∧ goIsDigit (Char.ofNat (48 + r)) = true := by
  have hall : ∀ i : Fin 10,
      (Char.ofNat (48 + i.val)).toNat = 48 + i.val
        ∧ goIsDigit (Char.ofNat (48 + i.val)) = true := by decide
  exact hall ⟨r, h⟩

lemma natDecCharsAux_digits :
    ∀ fuel n : Nat, ∀ c ∈ natDecCharsAux fuel n, goIsDigit c = true
  | _, 0 => by simp [natDecCharsAux]
  | 0, _ + 1 => by simp [natDecCharsAux]
  | fuel + 1, m + 1 => by
    intro c hc
    simp only [natDecCharsAux, List.mem_append, List.mem_singleton] at hc
    rcases hc with hc | hc
    · exact natDecCharsAux_digits fuel ((m + 1) / 10) c hc
    · subst hc
      exact (digit_char_facts _ (Nat.mod_lt _ (by norm_num))).2

lemma natDecCharsAux_val :
    ∀ fuel n : Nat, n ≤ fuel → digitsToNat (natDecCharsAux fuel n) = n
  | _, 0, _ => by simp [natDecCharsAux, digitsToNat]
  | 0, n + 1, h => absurd h (by omega)
  | fuel + 1, m + 1, h => by
    have hq : (m + 1) / 10 ≤ fuel := by
      have := Nat.div_lt_self (Nat.succ_pos m) (by norm_num : 1 < 10)
      omega
    have hr := (digit_char_facts ((m + 1) % 10) (Nat.mod_lt _ (by norm_num))).1
    simp only [natDecCharsAux]
    rw [digitsToNat_append, natDecCharsAux_val fuel ((m + 1) / 10) hq]
    simp only [digitsToNat, List.foldl_cons, List.foldl_nil, List.length_cons,
      List.length_nil, hr]
    omega

lemma natDecChars_digits (n : Nat) : ∀ c ∈ natDecChars n, goIsDigit c = true := by
  unfold natDecChars
  by_cases h : n = 0
  · rw [if_pos h]
    intro c hc
    simp only [List.mem_singleton] at hc
    subst hc
    decide
  · rw [if_neg h]
    exact natDecCharsAux_digits n n

lemma natDecChars_ne_nil (n : Nat) : natDecChars n ≠ [] := by
  unfold natDecChars
  by_cases h : n = 0
  · simp [h]
  · rw [if_neg h]
    obtain ⟨m, rfl⟩ := Nat.exists_eq_succ_of_ne_zero h
    simp [natDecCharsAux]

lemma digitsToNat_natDecChars (n : Nat) : digitsToNat (natDecChars n) = n := by
  unfold natDecChars
  by_cases h : n = 0
  · simp [h, digitsToNat]
  · rw [if_neg h]
    exact natDecCharsAux_val n n le_rfl

/-! ### Characterizations of the conversion functions -/

/-- On a dot-free input, `ToIntByPrecise` appends the single digit `'0'` to
the trimmed input, parses the result, and scales by
`10 ^ max 0 (precise - 1)`. -/
lemma ToIntByPrecise_no_dot (s : String) (p : Int) (h : '.' ∉ s.data) :
    ToIntByPrecise s p
      = (goSetString (trimSpace s.data ++ ['0'])).1
          * (10 : Int) ^ ((if p - 1 < 0 then 0 else p - 1).toNat) := by
  have hdot : '.' ∉ trimSpace s.data := fun hc => h (mem_trimSpace hc)
  simp only [ToIntByPrecise, splitDot_no_dot _ hdot, List.length_singleton,
    eq_self_iff_true, if_true, List.singleton_append, List.headD_cons,
    List.drop_succ_cons, List.drop_zero, List.headD_nil, List.length_cons,
    List.length_nil, Nat.zero_add, Nat.cast_one]
  by_cases h1 : p - 1 < 0
  · simp only [if_pos h1]
    rw [if_neg (by omega : ¬(0 : Int) > 0)]
    simp
  · simp only [if_neg h1]
    by_cases h2 : p - 1 > 0
    · rw [if_pos h2]
    · rw [if_neg h2]
      have h3 : p - 1 = 0 := by omega
      rw [h3]
      simp

/-- The final scaling step of `ToIntByPrecise` (`if precise > 0` guard merged
into the power, since `10 ^ 0 = 1`). -/
lemma scale_ite (b e0 : Int) :
    (if (if e0 < 0 then 0 else e0) > 0 then
        b * (10 : Int) ^ (if e0 < 0 then 0 else e0).toNat
      else b)
      = b * (10 : Int) ^ ((if e0 < 0 then 0 else e0).toNat) := by
  by_cases h1 : e0 < 0
  · simp [h1]
  · by_cases h2 : e0 > 0
    · simp [h1, h2]
    · have h3 : e0 = 0 := by omega
      subst h3
      simp

/-- On an input of shape `a ++ "." ++ b` with `a` a nonempty digit string and
`b` a digit string, `ToIntByPrecise` concatenates the two parts and scales by
`10 ^ max 0 (precise - length b)`. -/
lemma ToIntByPrecise_one_dot (a b : List Char) (p : Int) (ha : a ≠ [])
    (had : ∀ x ∈ a, goIsDigit x = true) (hbd : ∀ x ∈ b, goIsDigit x = true) :
    ToIntByPrecise ⟨a ++ '.' :: b⟩ p
      = (digitsToNat (a ++ b) : Int)
          * (10 : Int) ^ ((if p - (b.length : Int) < 0 then 0
              else p - (b.length : Int)).toNat) := by
  have hns : ∀ c ∈ a ++ '.' :: b, goIsSpace c = false := by
    intro c hc
    rcases List.mem_append.mp hc with h | h
    · exact goIsSpace_of_digit (had c h)
    · rcases List.mem_cons.mp h with rfl | h
      · decide
      · exact goIsSpace_of_digit (hbd c h)
  have hadot : '.' ∉ a := fun hc => goIsDigit_ne_dot (had _ hc) rfl
  have hbdot : '.' ∉ b := fun hc => goIsDigit_ne_dot (hbd _ hc) rfl
  have hset : goSetString (a ++ b) = ((digitsToNat (a ++ b) : Int), true) := by
    refine goSetString_digits (by simp [ha]) ?_
    intro c hc
    rcases List.mem_append.mp hc with h | h
    · exact had c h
    · exact hbd c h
  simp only [ToIntByPrecise, String.data]
  rw [trimSpace_eq_self hns, splitDot_append_dot _ _ hadot,
    splitDot_no_dot _ hbdot]
  rw [if_neg (by simp : ¬([a, b] : List (List Char)).length = 1)]
  simp only [List.headD_cons, List.drop_succ_cons, List.drop_zero, hset]
  exact scale_ite _ _

/-- `ToStringByPrecise` applied to a non-negative value and a non-negative
precision divides by `10 ^ max 0 (-precise) = 1` and so returns the plain
decimal string of the input. -/
lemma ToStringByPrecise_nonneg (n p : Nat) :
    ToStringByPrecise (some (n : Int)) (p : Int) = String.mk (natDecChars n) := by
  have he : (if -(p : Int) < 0 then 0 else -(p : Int)) = 0 := by
    by_cases h : -(p : Int) < 0
    · rw [if_pos h]
    · rw [if_neg h]
      omega
  simp only [ToStringByPrecise, he, Int.toNat_zero, pow_zero, Int.ediv_one,
    intToDecString]
  rw [if_neg (not_lt.mpr (Int.natCast_nonneg n))]
  rw [Int.toNat_natCast]

/-- On an input with two (or more) separators, `strings.Split` produces at
least three parts; only `parts[0]` and `parts[1]` are used, so everything
from the second `'.'` on is silently dropped. -/
lemma ToIntByPrecise_two_dots (a b c' : List Char) (p : Int) (ha : a ≠ [])
    (had : ∀ x ∈ a, goIsDigit x = true) (hbd : ∀ x ∈ b, goIsDigit x = true) :
    ToIntByPrecise ⟨a ++ '.' :: (b ++ '.' :: c')⟩ p
      = (digitsToNat (a ++ b) : Int)
          * (10 : Int) ^ ((if p - (b.length : Int) < 0 then 0
              else p - (b.length : Int)).toNat) := by
  have hdotns : goIsSpace '.' = false := by decide
  have hans : ∀ x ∈ a, goIsSpace x = false :=
    fun x hx => goIsSpace_of_digit (had x hx)
  have hadot : '.' ∉ a := fun hc => goIsDigit_ne_dot (had _ hc) rfl
  have hbdot : '.' ∉ b := fun hc => goIsDigit_ne_dot (hbd _ hc) rfl
  have hset : goSetString (a ++ b) = ((digitsToNat (a ++ b) : Int), true) :=
    goSetString_digits (by simp [ha])
      (fun x hx => (List.mem_append.mp hx).elim (had x) (hbd x))
  have htrim : trimSpace (a ++ '.' :: (b ++ '.' :: c'))
      = a ++ '.' :: (b ++ '.' :: (c'.reverse.dropWhile goIsSpace).reverse) := by
    rw [trimSpace_append _ hdotns hans]
    rw [show (b ++ '.' :: c').reverse = c'.reverse ++ '.' :: b.reverse by
      simp [List.reverse_append]]
    rw [dropWhile_append_cons hdotns]
    simp [List.reverse_append]
  simp only [ToIntByPrecise, String.data]
  rw [htrim, splitDot_append_dot _ _ hadot, splitDot_append_dot _ _ hbdot]
  rw [if_neg (by simp [List.length_cons] :
    ¬(a :: b :: splitDot (c'.reverse.dropWhile goIsSpace).reverse).length = 1)]
  simp only [List.headD_cons, List.drop_succ_cons, List.drop_zero, hset]
  exact scale_ite _ _

/-! ### Claim theorems -/

/-- Claim C1 (code bug): the claim says `ToStringByPrecise(scaled, p)` returns
the decimal string of `⌊scaled / 10^p⌋`, e.g. `"1"` and `"2"` on the two test
vectors.  The code negates the precision before clamping it at zero
(`precise = -precise; if precise < 0 { precise = 0 }`), so for any
non-negative precision it divides by `10^0 = 1` and returns the full integer
string: both test vectors of the claim fail on the code. -/
theorem ToStringByPrecise_positive_precision_is_identity :
    ToStringByPrecise (some 1500000000000000000) 18 = "1500000000000000000"
      ∧ ToStringByPrecise (some 1500000000000000000) 18 ≠ "1"
      ∧ ToStringByPrecise (some 2999999999999999999) 18 = "2999999999999999999"
      ∧ ToStringByPrecise (some 2999999999999999999) 18 ≠ "2" := by
  refine ⟨by decide, by decide, by decide, by decide⟩

/-- Claim C2 (code bug): the claim says a negative precision is treated as
exponent `0`, returning the input unchanged.  Because of the same sign flip
as in C1, `-(-1) = 1` survives the clamp and the code divides by `10^1`:
`ToStringByPrecise(10, -1)` is `"1"`, not `"10"`. -/
theorem ToStringByPrecise_negative_precision_divides :
    ToStringByPrecise (some 10) (-1) = "1"
      ∧ ToStringByPrecise (some 10) (-1) ≠ "10" := by
  refine ⟨by decide, by decide⟩

/-- Claim C3, counterexample: the claim says malformed input such as
`"12a.3"` fails with a parse error and is never coerced to an integer.  The
code ignores the boolean returned by `big.Int.SetString` (which is `false`
here, second conjunct) and returns the scaled value of the longest leading
digit run: `12 * 10^17`. -/
theorem ToIntByPrecise_malformed_is_coerced :
    ToIntByPrecise "12a.3" 18 = 1200000000000000000
      ∧ (goSetString ("12a3".data)).2 = false := by
  refine ⟨by decide, by decide⟩

/-- Claim C3, amended: `ToIntByPrecise` has no error channel.  On an input
consisting of a nonempty digit run followed by a non-digit, non-separator,
non-space character and arbitrary dot-free, space-free junk, the `SetString`
failure is silently ignored and the result is the value of the digit run
scaled by `10 ^ max 0 (precise - 1)`. -/
theorem ToIntByPrecise_malformed_digit_run (pre post : List Char) (c : Char)
    (p : Int) (h1 : pre ≠ []) (h2 : ∀ x ∈ pre, goIsDigit x = true)
    (h3 : goIsDigit c = false) (h4 : c ≠ '.') (h5 : goIsSpace c = false)
    (h6 : '.' ∉ post) (h7 : ∀ x ∈ post, goIsSpace x = false) :
    ToIntByPrecise ⟨pre ++ c :: post⟩ p
      = (digitsToNat pre : Int)
          * (10 : Int) ^ ((if p - 1 < 0 then 0 else p - 1).toNat) := by
  have hdot : '.' ∉ (String.mk (pre ++ c :: post)).data := by
    intro hc
    rcases List.mem_append.mp hc with hm | hm
    · exact goIsDigit_ne_dot (h2 _ hm) rfl
    · rcases List.mem_cons.mp hm with heq | hm
      · exact h4 heq.symm
      · exact h6 hm
  rw [ToIntByPrecise_no_dot _ p hdot]
  have htrim : trimSpace (pre ++ c :: post) = pre ++ c :: post :=
    trimSpace_eq_self (by
      intro x hx
      rcases List.mem_append.mp hx with hm | hm
      · exact goIsSpace_of_digit (h2 _ hm)
      · rcases List.mem_cons.mp hm with rfl | hm
        · exact h5
        · exact h7 _ hm)
  show (goSetString (trimSpace (pre ++ c :: post) ++ ['0'])).1 * _ = _
  rw [htrim, show (pre ++ c :: post) ++ ['0'] = pre ++ c :: (post ++ ['0'])
    by simp, goSetString_run _ h1 h2 h3]

/-- Witness for `ToIntByPrecise_malformed_digit_run` at the concrete
dot-free malformed input `"12a3"` with precision 18. -/
theorem ToIntByPrecise_malformed_digit_run_witness :
    ToIntByPrecise "12a3" 18 = 1200000000000000000 := by
  have h := ToIntByPrecise_malformed_digit_run ['1', '2'] ['3'] 'a' 18
    (by decide) (by decide) (by decide) (by decide) (by decide)
    (by decide) (by decide)
  exact h.trans (by decide)

/-- Claim C4, counterexample: the claim says the round trip
`ToIntByPrecise(ToStringByPrecise(n, p), p)` never exceeds `n`.  At
`n = 1, p = 0` the round trip yields `10 > 1`: `ToStringByPrecise` returns
`"1"`, and `ToIntByPrecise` appends the default fractional digit `"0"`,
making the digit string `"10"`. -/
theorem roundTrip_exceeds_input :
    ¬(ToIntByPrecise (ToStringByPrecise (some 1) 0) 0 ≤ 1) := by decide

/-- Claim C4, amended: on the code as written, the round trip multiplies
instead of truncating.  For `p ≥ 0`, `ToStringByPrecise(n, p)` returns the
plain decimal string of `n` (see C1), and scaling it back up gives exactly
`n * 10 ^ max 1 p` — which is `≥ n`, with equality only at `n = 0`. -/
theorem roundTrip_scales_up (n p : Nat) :
    ToIntByPrecise (ToStringByPrecise (some (n : Int)) (p : Int)) (p : Int)
      = (n : Int) * (10 : Int) ^ max 1 p := by
  rw [ToStringByPrecise_nonneg]
  have hdigits := natDecChars_digits n
  have hdot : '.' ∉ (String.mk (natDecChars n)).data :=
    fun hc => goIsDigit_ne_dot (hdigits _ hc) rfl
  rw [ToIntByPrecise_no_dot _ _ hdot]
  have htrim : trimSpace (natDecChars n) = natDecChars n :=
    trimSpace_eq_self (fun c hc => goIsSpace_of_digit (hdigits c hc))
  show (goSetString (trimSpace (natDecChars n) ++ ['0'])).1 * _ = _
  rw [htrim]
  have hgo : (goSetString (natDecChars n ++ ['0'])).1
      = (digitsToNat (natDecChars n ++ ['0']) : Int) := by
    rw [goSetString_digits (by simp [natDecChars_ne_nil n]) (by
      intro c hc
      rcases List.mem_append.mp hc with hm | hm
      · exact hdigits _ hm
      · simp only [List.mem_singleton] at hm
        subst hm
        decide)]
  have hval : digitsToNat (natDecChars n ++ ['0']) = 10 * n := by
    rw [digitsToNat_append, digitsToNat_natDecChars]
    simp [digitsToNat, pow_one]
    ring
  rw [hgo, hval]
  rcases p with _ | m
  · norm_num
    ring
  · have hc : ((m + 1 : Nat) : Int) - 1 = (m : Int) := by push_cast; ring
    rw [hc, if_neg (not_lt.mpr (Int.natCast_nonneg m)), Int.toNat_natCast,
      Nat.max_eq_right (by omega : 1 ≤ m + 1), pow_succ]
    push_cast
    ring

/-- Claim C5, counterexample: the claim says the input is split at the first
`'.'` only, with the fractional part being the entire remaining text (so
`"1.2.3"` would have fractional part `"2.3"` and fail to parse).  In the
code `strings.Split` splits at every `'.'`: the fractional part of `"1.2.3"`
is just `"2"` (second conjunct), and the call returns `120` instead of
failing. -/
theorem ToIntByPrecise_second_dot_dropped :
    ToIntByPrecise "1.2.3" 2 = 120
      ∧ ((splitDot (trimSpace ("1.2.3".data))).drop 1).headD []
          ≠ ['2', '.', '3'] := by
  refine ⟨by decide, by decide⟩

/-- Claim C5, amended: `ToIntByPrecise` splits at every `'.'` and uses only
`parts[0]` and `parts[1]`; everything from the second `'.'` on (here `c'`,
completely arbitrary) is silently dropped, with no parse failure. -/
theorem ToIntByPrecise_splits_every_dot (a b c' : List Char) (p : Int)
    (ha : a ≠ []) (had : ∀ x ∈ a, goIsDigit x = true)
    (hbd : ∀ x ∈ b, goIsDigit x = true) :
    ToIntByPrecise ⟨a ++ '.' :: (b ++ '.' :: c')⟩ p
      = (digitsToNat (a ++ b) : Int)
          * (10 : Int) ^ ((if p - (b.length : Int) < 0 then 0
              else p - (b.length : Int)).toNat) :=
  ToIntByPrecise_two_dots a b c' p ha had hbd

/-- Witness for `ToIntByPrecise_splits_every_dot` at `"1.2.3"` with
precision 2: the digit string is `"12"`, the dropped tail `"3"`. -/
theorem ToIntByPrecise_splits_every_dot_witness :
    ToIntByPrecise "1.2.3" 2 = 120 := by
  have h := ToIntByPrecise_splits_every_dot ['1'] ['2'] ['3'] 2
    (by decide) (by decide) (by decide)
  exact h.trans (by decide)

/-- Claim C6 (confirmed): on an input with no `'.'`, the missing fractional
part is treated as the single digit `"0"`: the digit string is the trimmed
integer part with `'0'` appended and the effective precision is
`precise - 1` (clamped at zero). -/
theorem ToIntByPrecise_no_dot_defaults (s : String) (p : Int)
    (h : '.' ∉ s.data) :
    ToIntByPrecise s p
      = (goSetString (trimSpace s.data ++ ['0'])).1
          * (10 : Int) ^ ((if p - 1 < 0 then 0 else p - 1).toNat) :=
  ToIntByPrecise_no_dot s p h

/-- Witness for `ToIntByPrecise_no_dot_defaults`: the claim's own example
`ToIntByPrecise("5", 2) = 500` (digit string `"50"`, effective precision
`1`). -/
theorem ToIntByPrecise_no_dot_defaults_witness :
    ToIntByPrecise "5" 2 = 500 := by
  have h := ToIntByPrecise_no_dot_defaults "5" 2 (by decide)
  exact h.trans (by decide)

/-- Claim C7 (confirmed): when the fractional part is longer than the
precision, the effective precision clamps to zero and all fractional digits
are kept: the result is the plain value of the concatenated digit string,
and the internal parse succeeds (no error). -/
theorem ToIntByPrecise_excess_fraction (a b : List Char) (p : Int)
    (ha : a ≠ []) (had : ∀ x ∈ a, goIsDigit x = true)
    (hbd : ∀ x ∈ b, goIsDigit x = true) (hlen : p < (b.length : Int)) :
    ToIntByPrecise ⟨a ++ '.' :: b⟩ p = (digitsToNat (a ++ b) : Int)
      ∧ (goSetString (a ++ b)).2 = true := by
  constructor
  · rw [ToIntByPrecise_one_dot a b p ha had hbd,
      if_pos (by omega : p - (b.length : Int) < 0)]
    simp
  · rw [goSetString_digits (by simp [ha])
      (fun x hx => (List.mem_append.mp hx).elim (had x) (hbd x))]

/-- Witness for `ToIntByPrecise_excess_fraction`: the claim's own example
`ToIntByPrecise("0.123", 2) = 123` (not `12`). -/
theorem ToIntByPrecise_excess_fraction_witness :
    ToIntByPrecise "0.123" 2 = 123 := by
  have h := ToIntByPrecise_excess_fraction ['0'] ['1', '2', '3'] 2
    (by decide) (by decide) (by decide) (by decide)
  exact h.1.trans (by decide)

/-- Claim C8 (confirmed): a nil `*big.Int` argument yields the literal
string `"0"` for every precision, with no error. -/
theorem ToStringByPrecise_none_is_zero (p : Int) :
    ToStringByPrecise none p = "0" := rfl

/-- Claim C9 (confirmed): `ToStringByPrecise` copies its argument before
dividing, so the caller's cell is unchanged by the call, and the string
produced is the one computed by the pure embedding on the cell's value. -/
theorem ToStringByPreciseHeap_frame (h : BigIntHeap) (a : Nat) (p : Int)
    (ha : a < h.next) :
    (ToStringByPreciseHeap h (some a) p).1.val a = h.val a
      ∧ (ToStringByPreciseHeap h (some a) p).2
          = ToStringByPrecise (some (h.val a)) p := by
  have hne : ¬(a = h.next) := by omega
  constructor
  · simp only [ToStringByPreciseHeap, heapSet, heapDiv]
    simp [hne]
  · simp only [ToStringByPreciseHeap, heapSet, heapDiv, ToStringByPrecise]
    simp

/-- Witness for `ToStringByPreciseHeap_frame` on a one-cell heap holding 7,
with precision 18. -/
theorem ToStringByPreciseHeap_frame_witness :
    (ToStringByPreciseHeap ⟨1, fun _ => 7⟩ (some 0) 18).1.val 0 = 7
      ∧ (ToStringByPreciseHeap ⟨1, fun _ => 7⟩ (some 0) 18).2
          = ToStringByPrecise (some 7) 18 :=
  ToStringByPreciseHeap_frame ⟨1, fun _ => 7⟩ 0 18 (by decide)

/-- Claim C10 (confirmed): on an empty or all-whitespace input, trimming
leaves the empty string, the default fractional digit makes the digit string
`"0"`, and the result is `0` — with no error, since `ToIntByPrecise` has no
error channel at all. -/
theorem ToIntByPrecise_whitespace_is_zero (s : String) (p : Int)
    (h : ∀ c ∈ s.data, goIsSpace c = true) : ToIntByPrecise s p = 0 := by
  have htrim : trimSpace s.data = [] := by
    unfold trimSpace
    rw [dropWhile_all _ h]
    rfl
  have h0 : goSetString ['0'] = (0, true) := by decide
  simp only [ToIntByPrecise, htrim, splitDot, List.length_singleton,
    eq_self_iff_true, if_true, List.singleton_append, List.headD_cons,
    List.drop_succ_cons, List.drop_zero, List.nil_append, h0, List.length_cons,
    List.length_nil, Nat.zero_add, Nat.cast_one]
  simp

/-- Witness for `ToIntByPrecise_whitespace_is_zero` at the empty string and
at a single space. -/
theorem ToIntByPrecise_whitespace_is_zero_witness :
    ToIntByPrecise "" 18 = 0 ∧ ToIntByPrecise " " 5 = 0 :=
  ⟨ToIntByPrecise_whitespace_is_zero "" 18 (by decide),
   ToIntByPrecise_whitespace_is_zero " " 5 (by decide)⟩
